import Mathlib

/-!
A shallow embedding of the grouping engine of `src/src/App.tsx` (the
KlassLess name-cluster application) together with proofs about it.

JavaScript `Set`s are modelled as insertion-ordered duplicate-free
`List String` values: `Set.add` appends a missing element at the end,
`Set.delete` is `List.erase`, iteration order is list order, and
destructuring `const [x] = set` takes the list head.  JavaScript `Map`s
are modelled as insertion-ordered association lists where `Map.set`
overwrites in place.  Number inputs that the source compares against `0`
are modelled as `Int`.
-/

/-- A link between two entity names, exactly as the `NameLink` interface. -/
structure Link where
  source : String
  target : String
deriving DecidableEq, Repr

/-- An output node, exactly as the `Node` interface of the source:
an entity id, its gender string, and the index of its group. -/
structure Node where
  id : String
  gender : String
  group : Nat
deriving DecidableEq, Repr

/-- JavaScript `Set.add` on an insertion-ordered duplicate-free list:
append the element at the end unless it is already present. -/
def setAdd (s : List String) (x : String) : List String :=
  if x ∈ s then s else s ++ [x]

/-- The body of the `forEach` inside `findConnectedNames`: for one link,
if the source is in the set add the target, then (on the updated set)
if the target is in the set add the source. -/
def addLink (s : List String) (l : Link) : List String :=
  let s1 := if l.source ∈ s then setAdd s l.target else s
  if l.target ∈ s1 then setAdd s1 l.source else s1

/-- One full pass of `linkPairs.forEach` inside `findConnectedNames`. -/
def scanLinks (linkPairs : List Link) (s : List String) : List String :=
  linkPairs.foldl addLink s

/-- The do-while loop of `findConnectedNames`: repeat full passes until a
pass does not change the size of the set.  The source loop terminates
because the set grows monotonically and is bounded; here the same bound
is supplied as explicit fuel, and `closureLoop_fixpoint` below shows the
fuel used by `findConnectedNames` is never exhausted early. -/
def closureLoop (linkPairs : List Link) : Nat → List String → List String
  | 0, s => s
  | fuel + 1, s =>
    let s2 := scanLinks linkPairs s
    if s2.length = s.length then s2 else closureLoop linkPairs fuel s2

/-- `findConnectedNames(name, linkPairs)`: the connectivity closure of a
seed name under the undirected link relation. -/
def findConnectedNames (name : String) (linkPairs : List Link) : List String :=
  closureLoop linkPairs (2 * linkPairs.length + 1) [name]

/-- `countConnectionsBetweenGroups`: the number of links with one endpoint
in each of the two groups (each link occurrence counted once). -/
def countConnectionsBetweenGroups (group1 group2 : List String) (linkPairs : List Link) : Nat :=
  linkPairs.countP fun l =>
    decide ((l.source ∈ group1 ∧ l.target ∈ group2) ∨ (l.target ∈ group1 ∧ l.source ∈ group2))

/-- Reachability in the undirected link graph: the least relation that
contains the seed and, for every listed link, steps across it in either
direction.  This is the specification-side notion of §4.1. -/
inductive Reachable (linkPairs : List Link) (seed : String) : String → Prop
  | refl : Reachable linkPairs seed seed
  | fwd {x : String} (l : Link) (hx : Reachable linkPairs seed x) (hl : l ∈ linkPairs)
      (hs : l.source = x) : Reachable linkPairs seed l.target
  | bwd {x : String} (l : Link) (hx : Reachable linkPairs seed x) (hl : l ∈ linkPairs)
      (ht : l.target = x) : Reachable linkPairs seed l.source

/-- `[...new Set(list)]`: deduplicate a list keeping first occurrences,
in insertion order. -/
def jsDedup (l : List String) : List String := l.foldl setAdd []

/-- The candidate computation inside the `createConnectedGroups` loop:
for each member of the group in progress take its connectivity closure,
and collect (in insertion order) the closure elements that are still
unassigned. -/
def computeCandidates (currentGroup unassigned : List String) (linkPairs : List Link) :
    List String :=
  currentGroup.foldl
    (fun acc name =>
      (findConnectedNames name linkPairs).foldl
        (fun acc2 c => if c ∈ unassigned then setAdd acc2 c else acc2) acc)
    []

/-- The minimum-size padding loop of `createConnectedGroups`: while the
group is below `minSize` and unassigned names remain, move the first
unassigned name into the group.  Returns the padded group and the
remaining unassigned names. -/
def padGroup (minSize : Nat) : List String → List String → List String × List String
  | currentGroup, [] => (currentGroup, [])
  | currentGroup, x :: rest =>
    if currentGroup.length < minSize then padGroup minSize (currentGroup ++ [x]) rest
    else (currentGroup, x :: rest)

/-- The main `while (unassignedNames.size > 0)` loop of
`createConnectedGroups`, as a recursion on the pair
(unassigned names, group in progress).  Seeding an empty group and then
re-entering the loop is observably identical to the source's fall-through
within one iteration, and the source's post-loop flush of a non-empty
group in progress coincides with the branch where the candidate set is
empty because no unassigned names remain.  The source loop terminates
because `2 * unassigned.size + (currentGroup nonempty)` strictly
decreases; that quantity is supplied here as explicit fuel, and
`createLoop_fuel` below shows the fuel passed by `createConnectedGroups`
is never exhausted. -/
def createLoop (linkPairs : List Link) (minSize maxSize : Nat) :
    Nat → List String → List String → List (List String)
  | 0, _, _ => []
  | fuel + 1, unassigned, [] =>
    match unassigned with
    | [] => []
    | x :: rest => createLoop linkPairs minSize maxSize fuel rest [x]
  | fuel + 1, unassigned, c0 :: cg =>
    let currentGroup := c0 :: cg
    match computeCandidates currentGroup unassigned linkPairs with
    | [] =>
      let p := padGroup minSize currentGroup unassigned
      p.1 :: createLoop linkPairs minSize maxSize fuel p.2 []
    | c :: _ =>
      if maxSize ≤ currentGroup.length then
        let p := padGroup minSize currentGroup unassigned
        p.1 :: createLoop linkPairs minSize maxSize fuel p.2 []
      else
        createLoop linkPairs minSize maxSize fuel (unassigned.erase c) (currentGroup ++ [c])

/-- `createConnectedGroups(uniqueNames, peopleMap, linkPairs, minSize, maxSize)`.
The source signature also receives the people map, which its body never
reads; it is omitted here. -/
def createConnectedGroups (uniqueNames : List String) (linkPairs : List Link)
    (minSize maxSize : Nat) : List (List String) :=
  let unassigned := jsDedup uniqueNames
  createLoop linkPairs minSize maxSize (2 * unassigned.length + 1) unassigned []

/-- All index pairs `(i, j)` with `i < j < n`, in the row-major order of
the two nested `for` loops of `mergeGroups`. -/
def rowPairs (n : Nat) : List (Nat × Nat) :=
  ((List.range n).flatMap fun i => (List.range n).map fun j => (i, j)).filter
    fun p => decide (p.1 < p.2)

/-- One candidate-pair inspection of the `mergeGroups` search: if the
combined size fits under `maxSize` and the connection count beats the
best score so far, record the pair. -/
def bestStep (groups : List (List String)) (linkPairs : List Link) (maxSize : Nat)
    (st : Int × Option (Nat × Nat)) (p : Nat × Nat) : Int × Option (Nat × Nat) :=
  if (groups.getD p.1 []).length + (groups.getD p.2 []).length ≤ maxSize then
    let score : Int := countConnectionsBetweenGroups (groups.getD p.1 []) (groups.getD p.2 []) linkPairs
    if st.1 < score then (score, some p) else st
  else st

/-- The pair search of one `mergeGroups` iteration: best score starts at
`-1`, best pair starts absent, and the nested loops are the row-major
scan of `rowPairs`. -/
def findBestPair (groups : List (List String)) (linkPairs : List Link) (maxSize : Nat) :
    Option (Nat × Nat) :=
  ((rowPairs groups.length).foldl (bestStep groups linkPairs maxSize) (-1, none)).2

/-- The merge action of one `mergeGroups` iteration: splice out index `j`
then index `i` (the source removes the higher index first) and push the
concatenation of the two groups at the end. -/
def mergeStep (groups : List (List String)) (i j : Nat) : List (List String) :=
  ((groups.eraseIdx j).eraseIdx i) ++ [groups.getD i [] ++ groups.getD j []]

/-- The `while (groups.length > targetGroupCount)` loop of `mergeGroups`.
Each pass either returns (target reached, or no eligible pair) or merges
one pair, shrinking the list by one, so `groups.length` bounds the
number of passes; that bound is supplied as explicit fuel, and
`mergeLoop_fuel` below shows the fuel passed by `mergeGroups` is never
exhausted. -/
def mergeLoop (linkPairs : List Link) (maxSize targetGroupCount : Nat) :
    Nat → List (List String) → List (List String)
  | 0, groups => groups
  | fuel + 1, groups =>
    if groups.length ≤ targetGroupCount then groups
    else
      match findBestPair groups linkPairs maxSize with
      | none => groups
      | some (i, j) => mergeLoop linkPairs maxSize targetGroupCount fuel (mergeStep groups i j)

/-- `mergeGroups(groups, linkPairs, maxSize, targetGroupCount)`. -/
def mergeGroups (groups : List (List String)) (linkPairs : List Link)
    (maxSize targetGroupCount : Nat) : List (List String) :=
  mergeLoop linkPairs maxSize targetGroupCount groups.length groups

/-- JavaScript `Map.get` on the association-list model. -/
def mapLookup : List (String × String) → String → Option String
  | [], _ => none
  | e :: rest, k => if e.1 = k then some e.2 else mapLookup rest k

/-- JavaScript `Map.set` on the association-list model: overwrite the
value in place (keeping the key's original position) if the key exists,
else append the new entry at the end. -/
def mapSet : List (String × String) → String → String → List (String × String)
  | [], k, v => [(k, v)]
  | e :: rest, k, v => if e.1 = k then (k, v) :: rest else e :: mapSet rest k v

/-- The node construction of `processInput`: flatten the final groups,
tagging each name with its gender (from the people map) and the index of
its group. -/
def mkNodes (groups : List (List String)) (peopleMap : List (String × String)) : List Node :=
  groups.enum.flatMap fun gi =>
    gi.2.map fun name => { id := name, gender := (mapLookup peopleMap name).getD "", group := gi.1 }

/-- The `groupedNodes` record of the source, read at one group index:
the nodes whose `group` field equals it, in node order. -/
def groupedNodes (nodes : List Node) (groupId : Nat) : List Node :=
  nodes.filter fun n => n.group == groupId

/-- `getConnectionsInGroup(groupId)`: the connections with both endpoints
in the id set of the given group. -/
def getConnectionsInGroup (nodes : List Node) (connections : List Link) (groupId : Nat) :
    List Link :=
  let groupNodeIds := (groupedNodes nodes groupId).map Node.id
  connections.filter fun conn => decide (conn.source ∈ groupNodeIds ∧ conn.target ∈ groupNodeIds)

/-- `getConnectionsForName(name, groupConnections)`: the number of group
connections with the given name as an endpoint (each connection counted
once). -/
def getConnectionsForName (name : String) (groupConnections : List Link) : Nat :=
  (groupConnections.filter fun conn => decide (conn.source = name ∨ conn.target = name)).length

/-- `getIsolatedMembers(groupId)`: the nodes of the group whose
connection count within the group is zero. -/
def getIsolatedMembers (nodes : List Node) (connections : List Link) (groupId : Nat) :
    List Node :=
  (groupedNodes nodes groupId).filter fun node =>
    getConnectionsForName node.id (getConnectionsInGroup nodes connections groupId) == 0

/-- ASCII whitespace, for the model of JavaScript `String.trim`. -/
def isSpace (c : Char) : Bool := c == ' ' || c == '\t' || c == '\n' || c == '\r'

/-- JavaScript `String.trim` on a character list: drop whitespace from
both ends. -/
def trimChars (cs : List Char) : List Char :=
  ((cs.dropWhile isSpace).reverse.dropWhile isSpace).reverse

/-- JavaScript `String.trim`. -/
def trimStr (s : String) : String := String.mk (trimChars s.data)

/-- JavaScript `line.split(',')`: split at every comma; splitting the
empty string yields one empty field. -/
def splitOnComma : List Char → List (List Char)
  | [] => [[]]
  | c :: rest =>
    if c = ',' then [] :: splitOnComma rest
    else
      match splitOnComma rest with
      | [] => [[c]]
      | h :: t => (c :: h) :: t

/-- `line.split(',').map(part => part.trim())`, destructured into its
first two fields; a missing field reads as the empty string, like the
`undefined`/default-`''` destructuring of the source. -/
def splitFields (line : String) : String × String :=
  let parts := (splitOnComma line.data).map fun cs => String.mk (trimChars cs)
  (parts.getD 0 "", parts.getD 1 "")

/-- `gender.toUpperCase()`. -/
def strUpper (s : String) : String := String.mk (s.data.map Char.toUpper)

/-- The `Array.map` of a throwing callback, as the source uses for name
and link lines: transform each element in order, stopping at the first
thrown error. -/
def mapME {β : Type} (f : String → Except String β) : List String → Except String (List β)
  | [] => Except.ok []
  | x :: rest =>
    match f x with
    | Except.error e => Except.error e
    | Except.ok b =>
      match mapME f rest with
      | Except.error e => Except.error e
      | Except.ok bs => Except.ok (b :: bs)

/-- Parsing of one name line of `processInput`: reject a missing name,
reject a gender outside M/F/m/f, store the gender uppercased. -/
def parseEntityLine (line : String) : Except String (String × String) :=
  let f := splitFields line
  if f.1 = "" then Except.error "Invalid name format"
  else if f.2 = "M" ∨ f.2 = "F" ∨ f.2 = "m" ∨ f.2 = "f" then Except.ok (f.1, strUpper f.2)
  else Except.error ("Invalid gender for " ++ f.1 ++ ". Use M or F.")

/-- The name-parsing pass of `processInput`: keep the lines that are
nonempty after trimming, and parse each in order, stopping at the first
failure. -/
def parseEntities (lines : List String) : Except String (List (String × String)) :=
  mapME parseEntityLine (lines.filter fun l => trimStr l != "")

/-- Parsing of one link line of `processInput`: reject a missing field,
then reject an endpoint that is not a known unique name. -/
def parseLinkLine (uniqueNames : List String) (line : String) : Except String Link :=
  let f := splitFields line
  if f.1 = "" ∨ f.2 = "" then Except.error "Invalid link format"
  else if f.1 ∉ uniqueNames ∨ f.2 ∉ uniqueNames then
    Except.error ("Link contains name not in names list: " ++ f.1 ++ " or " ++ f.2)
  else Except.ok ⟨f.1, f.2⟩

/-- The link-parsing pass of `processInput`. -/
def parseLinks (uniqueNames : List String) (lines : List String) : Except String (List Link) :=
  mapME (parseLinkLine uniqueNames) (lines.filter fun l => trimStr l != "")

/-- `processInput`, from the two text areas (already split into lines,
which is all `split('\n')` does) and the three numeric settings to
either the first thrown error message or the computed nodes and links.
The steps are in source order: parse the names (throwing on a malformed
record), deduplicate, validate the three settings, parse and validate
the links, and only then build and merge the groups. -/
def processInput (nameLines linkLines : List String)
    (minGroupSize maxGroupSize maxGroups : Int) : Except String (List Node × List Link) :=
  match parseEntities nameLines with
  | Except.error e => Except.error e
  | Except.ok records =>
    let uniqueNames := jsDedup (records.map Prod.fst)
    let peopleMap := records.foldl (fun m r => mapSet m r.1 r.2) []
    if minGroupSize ≤ 0 then
      Except.error "Minimum group size must be greater than 0"
    else if maxGroupSize < minGroupSize then
      Except.error "Maximum group size must be greater than or equal to minimum group size"
    else if maxGroups ≤ 0 then
      Except.error "Maximum number of groups must be greater than 0"
    else
      match parseLinks uniqueNames linkLines with
      | Except.error e => Except.error e
      | Except.ok linkPairs =>
        let groups :=
          createConnectedGroups uniqueNames linkPairs minGroupSize.toNat maxGroupSize.toNat
        let merged := mergeGroups groups linkPairs maxGroupSize.toNat maxGroups.toNat
        Except.ok (mkNodes merged peopleMap, linkPairs)

/-- Modelled from the spec (§4.4): the per-entity degree in which a
self-link contributes both of its endpoints, i.e. counts twice. -/
def specDegreeBoth (name : String) (conns : List Link) : Nat :=
  (conns.map fun c => (if c.source = name then 1 else 0) + (if c.target = name then 1 else 0)).sum

/-- Specification-side count of the link occurrences touching a name,
each occurrence counted once (a self-link included once). -/
def specDegreeOnce (name : String) (conns : List Link) : Nat :=
  (conns.map fun c => if c.source = name ∨ c.target = name then 1 else 0).sum

/-- A merge-candidate pair is eligible when the combined size of the two
groups fits under `maxSize`. -/
def eligPair (groups : List (List String)) (maxSize : Nat) (p : Nat × Nat) : Prop :=
  (groups.getD p.1 []).length + (groups.getD p.2 []).length ≤ maxSize

/-- The merge score of a candidate pair: the number of links between the
two groups. -/
def pairScore (groups : List (List String)) (linkPairs : List Link) (p : Nat × Nat) : Nat :=
  countConnectionsBetweenGroups (groups.getD p.1 []) (groups.getD p.2 []) linkPairs

/-- Strict order of index pairs in the row-major enumeration of the two
nested `for` loops. -/
def pairLt (p q : Nat × Nat) : Prop :=
  p.1 < q.1 ∨ (p.1 = q.1 ∧ p.2 < q.2)

/-- The loop invariant of the best-pair search of `mergeGroups`: either
no pair has been recorded, the score is still `-1` and no processed pair
was eligible; or the recorded pair is a processed eligible pair whose
score is the running best, every processed eligible pair scores at most
it, and no strictly earlier processed pair ties its score. -/
def BestInv (groups : List (List String)) (linkPairs : List Link) (maxSize : Nat)
    (st : Int × Option (Nat × Nat)) (processed : List (Nat × Nat)) : Prop :=
  (st.2 = none → st.1 = -1 ∧ ∀ p ∈ processed, ¬ eligPair groups maxSize p) ∧
  (∀ q, st.2 = some q → q ∈ processed ∧ eligPair groups maxSize q ∧
    st.1 = (pairScore groups linkPairs q : Int) ∧
    (∀ p ∈ processed, eligPair groups maxSize p →
      pairScore groups linkPairs p ≤ pairScore groups linkPairs q ∧
      (pairScore groups linkPairs p = pairScore groups linkPairs q → ¬ pairLt p q)))

/-- Modelled from the spec (§3): first-seen deduplication, the order the
unique-entity list must preserve. -/
def firstSeen : List String → List String
  | [] => []
  | x :: rest => x :: (firstSeen rest).filter fun y => decide (y ≠ x)

/-- Modelled from the spec (§3): the gender attribute of the last
processed occurrence of a name. -/
def lastGenderOf (records : List (String × String)) (name : String) : Option String :=
  (records.reverse.find? fun r => r.1 == name).map Prod.snd

-- ### Basic lemmas about the JS-set model

theorem setAdd_sublist (s : List String) (x : String) : List.Sublist s (setAdd s x) := by
  unfold setAdd
  split
  · exact List.Sublist.refl s
  · exact List.sublist_append_left s [x]

theorem mem_setAdd_self (s : List String) (x : String) : x ∈ setAdd s x := by
  unfold setAdd
  split
  · assumption
  · simp

theorem setAdd_eq_iff_mem {s : List String} {x : String} : setAdd s x = s ↔ x ∈ s := by
  constructor
  · intro h
    have := mem_setAdd_self s x
    rwa [h] at this
  · intro h
    simp [setAdd, h]

theorem setAdd_nodup {s : List String} (h : s.Nodup) (x : String) : (setAdd s x).Nodup := by
  unfold setAdd
  by_cases hx : x ∈ s
  · simp [hx, h]
  · simp [hx, List.nodup_append, h]

theorem setAdd_subset {s : List String} {univ : List String} (hs : s ⊆ univ) {x : String}
    (hx : x ∈ univ) : setAdd s x ⊆ univ := by
  unfold setAdd
  split
  · exact hs
  · intro a ha
    rcases List.mem_append.mp ha with h | h
    · exact hs h
    · simp at h
      subst h
      exact hx

theorem addLink_sublist (s : List String) (l : Link) : List.Sublist s (addLink s l) := by
  unfold addLink
  simp only []
  set s1 := if l.source ∈ s then setAdd s l.target else s with hs1
  have h1 : List.Sublist s s1 := by
    rw [hs1]
    split
    · exact setAdd_sublist s l.target
    · exact List.Sublist.refl s
  split
  · exact h1.trans (setAdd_sublist s1 l.source)
  · exact h1

theorem addLink_nodup {s : List String} (h : s.Nodup) (l : Link) : (addLink s l).Nodup := by
  unfold addLink
  simp only []
  set s1 := if l.source ∈ s then setAdd s l.target else s with hs1
  have h1 : s1.Nodup := by
    rw [hs1]; split
    · exact setAdd_nodup h l.target
    · exact h
  split
  · exact setAdd_nodup h1 l.source
  · exact h1

theorem addLink_subset {s univ : List String} (hs : s ⊆ univ) {l : Link}
    (hsrc : l.source ∈ univ) (htgt : l.target ∈ univ) : addLink s l ⊆ univ := by
  unfold addLink
  simp only []
  set s1 := if l.source ∈ s then setAdd s l.target else s with hs1
  have h1 : s1 ⊆ univ := by
    rw [hs1]; split
    · exact setAdd_subset hs htgt
    · exact hs
  split
  · exact setAdd_subset h1 hsrc
  · exact h1

theorem scanLinks_sublist (linkPairs : List Link) (s : List String) :
    List.Sublist s (scanLinks linkPairs s) := by
  unfold scanLinks
  induction linkPairs generalizing s with
  | nil => exact List.Sublist.refl s
  | cons l rest ih =>
      exact (addLink_sublist s l).trans (ih (addLink s l))

theorem scanLinks_nodup {s : List String} (h : s.Nodup) (linkPairs : List Link) :
    (scanLinks linkPairs s).Nodup := by
  unfold scanLinks
  induction linkPairs generalizing s with
  | nil => exact h
  | cons l rest ih => exact ih (addLink_nodup h l)

theorem scanLinks_subset {s univ : List String} (hs : s ⊆ univ) {linkPairs : List Link}
    (hl : ∀ l ∈ linkPairs, l.source ∈ univ ∧ l.target ∈ univ) :
    scanLinks linkPairs s ⊆ univ := by
  unfold scanLinks
  induction linkPairs generalizing s with
  | nil => exact hs
  | cons l rest ih =>
      have := hl l (by simp)
      exact ih (addLink_subset hs this.1 this.2) (fun l' h' => hl l' (by simp [h']))

theorem mem_setAdd {s : List String} {x y : String} : y ∈ setAdd s x ↔ y ∈ s ∨ y = x := by
  unfold setAdd
  split
  · next h => constructor
              · exact Or.inl
              · rintro (hy | rfl)
                · exact hy
                · exact h
  · simp

-- ### The connectivity closure reaches its fixed point

theorem closureLoop_sublist (linkPairs : List Link) (fuel : Nat) (s : List String) :
    List.Sublist s (closureLoop linkPairs fuel s) := by
  induction fuel generalizing s with
  | zero => exact List.Sublist.refl s
  | succ n ih =>
      unfold closureLoop
      simp only []
      split
      · exact scanLinks_sublist linkPairs s
      · exact (scanLinks_sublist linkPairs s).trans (ih (scanLinks linkPairs s))

theorem closureLoop_nodup (linkPairs : List Link) (fuel : Nat) {s : List String}
    (h : s.Nodup) : (closureLoop linkPairs fuel s).Nodup := by
  induction fuel generalizing s with
  | zero => exact h
  | succ n ih =>
      unfold closureLoop
      simp only []
      split
      · exact scanLinks_nodup h linkPairs
      · exact ih (scanLinks_nodup h linkPairs)

theorem foldl_addLink_eq_self {linkPairs : List Link} {s : List String}
    (h : List.foldl addLink s linkPairs = s) : ∀ l ∈ linkPairs, addLink s l = s := by
  induction linkPairs with
  | nil => intro l hl; cases hl
  | cons l0 rest ih =>
      intro l hl
      have hsub1 : List.Sublist s (addLink s l0) := addLink_sublist s l0
      have hsub2 : List.Sublist (addLink s l0) (List.foldl addLink (addLink s l0) rest) :=
        scanLinks_sublist rest (addLink s l0)
      rw [List.foldl_cons] at h
      rw [h] at hsub2
      have heq : addLink s l0 = s := hsub2.antisymm hsub1
      rcases List.mem_cons.mp hl with rfl | hl
      · exact heq
      · refine ih ?_ l hl
        rw [heq] at h
        exact h

theorem addLink_eq_closed {s : List String} {l : Link} (h : addLink s l = s) :
    (l.source ∈ s → l.target ∈ s) ∧ (l.target ∈ s → l.source ∈ s) := by
  unfold addLink at h
  simp only [] at h
  by_cases hsrc : l.source ∈ s
  · simp only [hsrc, if_true] at h
    -- s1 = setAdd s l.target; the result contains s1 and equals s
    have hs1 : setAdd s l.target = s := by
      by_cases htgt : l.target ∈ setAdd s l.target
      · simp only [htgt, if_true] at h
        have h1 : List.Sublist (setAdd s l.target) (setAdd (setAdd s l.target) l.source) :=
          setAdd_sublist _ _
        rw [h] at h1
        exact h1.antisymm (setAdd_sublist s l.target)
      · exact absurd (mem_setAdd_self s l.target) htgt
    have htgt : l.target ∈ s := setAdd_eq_iff_mem.mp hs1
    refine ⟨fun _ => htgt, fun _ => ?_⟩
    rw [hs1] at h
    simp only [htgt, if_true] at h
    exact setAdd_eq_iff_mem.mp h
  · simp only [hsrc, if_false] at h
    refine ⟨fun hs => absurd hs hsrc, fun htgt => ?_⟩
    simp only [htgt, if_true] at h
    exact setAdd_eq_iff_mem.mp h

theorem closureLoop_fixpoint (linkPairs : List Link) (univ : List String)
    (hlinks : ∀ l ∈ linkPairs, l.source ∈ univ ∧ l.target ∈ univ) :
    ∀ fuel s, s.Nodup → s ⊆ univ → univ.length + 1 ≤ fuel + s.length →
    scanLinks linkPairs (closureLoop linkPairs fuel s) = closureLoop linkPairs fuel s := by
  intro fuel
  induction fuel with
  | zero =>
      intro s hnd hsub hlen
      have : s.length ≤ univ.length := (hnd.subperm hsub).length_le
      omega
  | succ n ih =>
      intro s hnd hsub hlen
      unfold closureLoop
      simp only []
      split
      · next heq =>
          have hsl : List.Sublist s (scanLinks linkPairs s) := scanLinks_sublist linkPairs s
          have : scanLinks linkPairs s = s := (hsl.eq_of_length heq.symm).symm
          rw [this]
          exact this
      · next hne =>
          have hsl : List.Sublist s (scanLinks linkPairs s) := scanLinks_sublist linkPairs s
          have hgt : s.length < (scanLinks linkPairs s).length :=
            lt_of_le_of_ne hsl.length_le (fun hc => hne (hc.symm))
          exact ih (scanLinks linkPairs s) (scanLinks_nodup hnd linkPairs)
            (scanLinks_subset hsub hlinks) (by omega)

theorem findConnectedNames_fixpoint (name : String) (linkPairs : List Link) :
    scanLinks linkPairs (findConnectedNames name linkPairs) = findConnectedNames name linkPairs := by
  unfold findConnectedNames
  have hflat : ∀ lp : List Link, (lp.flatMap fun l => [l.source, l.target]).length
      = 2 * lp.length := by
    intro lp
    induction lp with
    | nil => simp
    | cons l rest ih => simp [ih]; ring
  set univ := name :: linkPairs.flatMap (fun l => [l.source, l.target]) with huniv
  have hlen : univ.length = 2 * linkPairs.length + 1 := by
    rw [huniv]
    simp [hflat linkPairs]
  refine closureLoop_fixpoint linkPairs univ ?_ _ [name] (by simp) ?_ ?_
  · intro l hl
    constructor
    · rw [huniv]
      refine List.mem_cons_of_mem _ (List.mem_flatMap.mpr ⟨l, hl, by simp⟩)
    · rw [huniv]
      refine List.mem_cons_of_mem _ (List.mem_flatMap.mpr ⟨l, hl, by simp⟩)
  · intro x hx
    simp at hx
    subst hx
    rw [huniv]
    simp
  · simp [hlen]

theorem seed_mem_findConnectedNames (name : String) (linkPairs : List Link) :
    name ∈ findConnectedNames name linkPairs := by
  have := closureLoop_sublist linkPairs (2 * linkPairs.length + 1) [name]
  exact this.subset (by simp)

theorem findConnectedNames_nodup (name : String) (linkPairs : List Link) :
    (findConnectedNames name linkPairs).Nodup :=
  closureLoop_nodup linkPairs _ (by simp)

-- ### Soundness: everything the closure collects is reachable

theorem addLink_reachable {linkPairs : List Link} {seed : String} {s : List String} {l : Link}
    (hl : l ∈ linkPairs) (hs : ∀ x ∈ s, Reachable linkPairs seed x) :
    ∀ x ∈ addLink s l, Reachable linkPairs seed x := by
  unfold addLink
  simp only []
  set s1 := if l.source ∈ s then setAdd s l.target else s with hs1def
  have hs1 : ∀ x ∈ s1, Reachable linkPairs seed x := by
    rw [hs1def]
    split
    · next hsrc =>
        intro x hx
        rcases mem_setAdd.mp hx with hx | rfl
        · exact hs x hx
        · exact Reachable.fwd l (hs l.source hsrc) hl rfl
    · exact hs
  split
  · next htgt =>
      intro x hx
      rcases mem_setAdd.mp hx with hx | rfl
      · exact hs1 x hx
      · exact Reachable.bwd l (hs1 l.target htgt) hl rfl
  · exact hs1

theorem scanLinks_reachable {linkPairs sub : List Link} {seed : String}
    (hsub : ∀ l ∈ sub, l ∈ linkPairs) {s : List String}
    (hs : ∀ x ∈ s, Reachable linkPairs seed x) :
    ∀ x ∈ List.foldl addLink s sub, Reachable linkPairs seed x := by
  induction sub generalizing s with
  | nil => exact hs
  | cons l rest ih =>
      rw [List.foldl_cons]
      exact ih (fun l' h' => hsub l' (by simp [h']))
        (addLink_reachable (hsub l (by simp)) hs)

theorem closureLoop_reachable {linkPairs : List Link} {seed : String} (fuel : Nat)
    {s : List String} (hs : ∀ x ∈ s, Reachable linkPairs seed x) :
    ∀ x ∈ closureLoop linkPairs fuel s, Reachable linkPairs seed x := by
  induction fuel generalizing s with
  | zero => exact hs
  | succ n ih =>
      unfold closureLoop
      simp only []
      split
      · exact scanLinks_reachable (fun l h => h) hs
      · exact ih (scanLinks_reachable (fun l h => h) hs)

-- ### C7: the closure is exactly the reachable set

/-- Every member of `findConnectedNames` is reachable from the seed, and
every name reachable from the seed is a member. -/
theorem mem_findConnectedNames_iff (seed : String) (linkPairs : List Link) (x : String) :
    x ∈ findConnectedNames seed linkPairs ↔ Reachable linkPairs seed x := by
  constructor
  · intro hx
    refine closureLoop_reachable _ ?_ x hx
    intro y hy
    simp at hy
    subst hy
    exact Reachable.refl
  · intro hr
    induction hr with
    | refl => exact seed_mem_findConnectedNames seed linkPairs
    | fwd l hx hl hs ihx =>
        have hfix := findConnectedNames_fixpoint seed linkPairs
        have hcl := foldl_addLink_eq_self hfix l hl
        exact (addLink_eq_closed hcl).1 (hs ▸ ihx)
    | bwd l hx hl ht ihx =>
        have hfix := findConnectedNames_fixpoint seed linkPairs
        have hcl := foldl_addLink_eq_self hfix l hl
        exact (addLink_eq_closed hcl).2 (ht ▸ ihx)

theorem closureLoop_of_fix {linkPairs : List Link} {s : List String}
    (h : scanLinks linkPairs s = s) (fuel : Nat) :
    closureLoop linkPairs (fuel + 1) s = s := by
  unfold closureLoop
  simp [h]

theorem findConnectedNames_of_untouched_seed {seed : String} {linkPairs : List Link}
    (h : ∀ l ∈ linkPairs, l.source ≠ seed ∧ l.target ≠ seed) :
    findConnectedNames seed linkPairs = [seed] := by
  have hscan : scanLinks linkPairs [seed] = [seed] := by
    unfold scanLinks
    induction linkPairs with
    | nil => rfl
    | cons l rest ih =>
        have hl := h l (by simp)
        have hstep : addLink [seed] l = [seed] := by
          unfold addLink
          simp [hl.1, hl.2]
        rw [List.foldl_cons, hstep]
        exact ih fun l' h' => h l' (by simp [h'])
  exact closureLoop_of_fix hscan _

-- ### Deduplication

theorem foldl_setAdd_nodup (l : List String) {acc : List String} (h : acc.Nodup) :
    (List.foldl setAdd acc l).Nodup := by
  induction l generalizing acc with
  | nil => exact h
  | cons x rest ih => exact ih (setAdd_nodup h x)

theorem jsDedup_nodup (l : List String) : (jsDedup l).Nodup :=
  foldl_setAdd_nodup l List.nodup_nil

theorem foldl_setAdd_of_disjoint (l : List String) :
    ∀ acc : List String, (∀ x ∈ l, x ∉ acc) → l.Nodup → List.foldl setAdd acc l = acc ++ l := by
  induction l with
  | nil => intro acc _ _; simp
  | cons x rest ih =>
      intro acc hdisj hnd
      rw [List.foldl_cons]
      have hx : x ∉ acc := hdisj x (by simp)
      have hadd : setAdd acc x = acc ++ [x] := by simp [setAdd, hx]
      rw [hadd, ih (acc ++ [x]) ?_ hnd.of_cons]
      · simp
      · intro y hy
        simp only [List.mem_append, List.mem_singleton]
        rintro (hya | rfl)
        · exact hdisj y (by simp [hy]) hya
        · exact (List.nodup_cons.mp hnd).1 hy

theorem jsDedup_eq_self {l : List String} (h : l.Nodup) : jsDedup l = l := by
  unfold jsDedup
  rw [foldl_setAdd_of_disjoint l [] (by simp) h]
  simp

-- ### The group builder

theorem computeCandidates_subset (currentGroup unassigned : List String) (linkPairs : List Link) :
    ∀ x ∈ computeCandidates currentGroup unassigned linkPairs, x ∈ unassigned := by
  have inner : ∀ (cl acc : List String), (∀ x ∈ acc, x ∈ unassigned) →
      ∀ x ∈ cl.foldl (fun acc2 c => if c ∈ unassigned then setAdd acc2 c else acc2) acc,
        x ∈ unassigned := by
    intro cl
    induction cl with
    | nil => intro acc hacc; exact hacc
    | cons c rest ih =>
        intro acc hacc
        rw [List.foldl_cons]
        refine ih _ ?_
        split
        · next hc =>
            intro x hx
            rcases mem_setAdd.mp hx with hx | rfl
            · exact hacc x hx
            · exact hc
        · exact hacc
  unfold computeCandidates
  have outer : ∀ (cg : List String) (acc : List String), (∀ x ∈ acc, x ∈ unassigned) →
      ∀ x ∈ cg.foldl (fun acc name => (findConnectedNames name linkPairs).foldl
        (fun acc2 c => if c ∈ unassigned then setAdd acc2 c else acc2) acc) acc,
        x ∈ unassigned := by
    intro cg
    induction cg with
    | nil => intro acc hacc; exact hacc
    | cons name rest ih =>
        intro acc hacc
        rw [List.foldl_cons]
        exact ih _ (inner _ acc hacc)
  exact outer currentGroup [] (by simp)

theorem padGroup_append (minSize : Nat) :
    ∀ (unassigned currentGroup : List String),
    (padGroup minSize currentGroup unassigned).1 ++ (padGroup minSize currentGroup unassigned).2
      = currentGroup ++ unassigned := by
  intro unassigned
  induction unassigned with
  | nil => intro cg; simp [padGroup]
  | cons x rest ih =>
      intro cg
      unfold padGroup
      split
      · rw [ih (cg ++ [x])]
        simp
      · rfl

theorem padGroup_fst_le (minSize : Nat) :
    ∀ (unassigned currentGroup : List String),
    (padGroup minSize currentGroup unassigned).1.length ≤ max currentGroup.length minSize := by
  intro unassigned
  induction unassigned with
  | nil => intro cg; simp [padGroup]
  | cons x rest ih =>
      intro cg
      unfold padGroup
      split
      · next hlt =>
          have := ih (cg ++ [x])
          simp only [List.length_append, List.length_singleton] at this
          omega
      · simp

theorem padGroup_fst_ge (minSize : Nat) :
    ∀ (unassigned currentGroup : List String),
    currentGroup.length ≤ (padGroup minSize currentGroup unassigned).1.length := by
  intro unassigned
  induction unassigned with
  | nil => intro cg; simp [padGroup]
  | cons x rest ih =>
      intro cg
      unfold padGroup
      split
      · next hlt =>
          have := ih (cg ++ [x])
          simp only [List.length_append, List.length_singleton] at this
          omega
      · simp

theorem padGroup_snd_le (minSize : Nat) (unassigned currentGroup : List String) :
    (padGroup minSize currentGroup unassigned).2.length ≤ unassigned.length := by
  have happ := padGroup_append minSize unassigned currentGroup
  have hge := padGroup_fst_ge minSize unassigned currentGroup
  have := congrArg List.length happ
  simp only [List.length_append] at this
  omega

theorem createLoop_flatten_perm (linkPairs : List Link) (minSize maxSize : Nat) :
    ∀ (fuel : Nat) (unassigned currentGroup : List String),
    2 * unassigned.length + (if currentGroup = [] then 0 else 1) ≤ fuel →
    ((createLoop linkPairs minSize maxSize fuel unassigned currentGroup).flatten).Perm
      (currentGroup ++ unassigned) := by
  intro fuel
  induction fuel with
  | zero =>
      intro u cg hf
      have hu : u = [] := by
        cases u with
        | nil => rfl
        | cons a t => simp at hf
      have hcg : cg = [] := by
        by_cases h : cg = []
        · exact h
        · simp [h] at hf
      subst hu; subst hcg
      simp [createLoop]
  | succ n ih =>
      intro u cg hf
      cases cg with
      | nil =>
          cases u with
          | nil => simp [createLoop]
          | cons x rest =>
              simp only [createLoop]
              have := ih rest [x] (by simp at hf ⊢; omega)
              simpa using this
      | cons c0 cgr =>
          have hfin : ∀ _ : Unit,
              (((padGroup minSize (c0 :: cgr) u).1 ::
                createLoop linkPairs minSize maxSize n (padGroup minSize (c0 :: cgr) u).2 []).flatten).Perm
                ((c0 :: cgr) ++ u) := by
            intro _
            have hrec := ih (padGroup minSize (c0 :: cgr) u).2 []
              (by have := padGroup_snd_le minSize u (c0 :: cgr); simp at hf ⊢; omega)
            have hrec2 : ((createLoop linkPairs minSize maxSize n
                (padGroup minSize (c0 :: cgr) u).2 []).flatten).Perm
                (padGroup minSize (c0 :: cgr) u).2 := by simpa using hrec
            have happ := padGroup_append minSize u (c0 :: cgr)
            rw [List.flatten_cons]
            refine List.Perm.trans (hrec2.append_left _) ?_
            rw [happ]
          simp only [createLoop]
          split
          · exact hfin ()
          · next c cs hc =>
              split
              · exact hfin ()
              · have hcmem : c ∈ u := by
                  refine computeCandidates_subset (c0 :: cgr) u linkPairs c ?_
                  rw [hc]; simp
                have herase : (u.erase c).length = u.length - 1 := List.length_erase_of_mem hcmem
                have hulen : 1 ≤ u.length := List.length_pos.mpr
                  (by rintro rfl; cases hcmem)
                have hrec := ih (u.erase c) ((c0 :: cgr) ++ [c])
                  (by simp at hf ⊢; omega)
                refine hrec.trans ?_
                have hstep : ((c0 :: cgr) ++ [c]) ++ u.erase c = (c0 :: cgr) ++ (c :: u.erase c) := by
                  simp
                rw [hstep]
                exact ((List.perm_cons_erase hcmem).symm).append_left _

theorem createLoop_sizes (linkPairs : List Link) {minSize maxSize : Nat}
    (hmin : minSize ≤ maxSize) (hpos : 1 ≤ maxSize) :
    ∀ (fuel : Nat) (unassigned currentGroup : List String),
    currentGroup.length ≤ maxSize →
    ∀ g ∈ createLoop linkPairs minSize maxSize fuel unassigned currentGroup,
      g.length ≤ maxSize := by
  intro fuel
  induction fuel with
  | zero =>
      intro u cg _ g hg
      simp [createLoop] at hg
  | succ n ih =>
      intro u cg hcg g hg
      cases cg with
      | nil =>
          cases u with
          | nil => simp [createLoop] at hg
          | cons x rest =>
              simp only [createLoop] at hg
              refine ih rest [x] ?_ g hg
              simpa using hpos
      | cons c0 cgr =>
          have hfin : ∀ g, g ∈ (padGroup minSize (c0 :: cgr) u).1 ::
              createLoop linkPairs minSize maxSize n (padGroup minSize (c0 :: cgr) u).2 [] →
              g.length ≤ maxSize := by
            intro g hg
            rcases List.mem_cons.mp hg with rfl | hg
            · have h1 := padGroup_fst_le minSize u (c0 :: cgr)
              omega
            · exact ih _ [] (by simp) g hg
          simp only [createLoop] at hg
          rcases hg' : computeCandidates (c0 :: cgr) u linkPairs with _ | ⟨c, cs⟩
          · rw [hg'] at hg
            exact hfin g hg
          · rw [hg'] at hg
            simp only [] at hg
            by_cases hmax : maxSize ≤ (c0 :: cgr).length
            · rw [if_pos hmax] at hg
              exact hfin g hg
            · rw [if_neg hmax] at hg
              refine ih (u.erase c) ((c0 :: cgr) ++ [c]) ?_ g hg
              simp at hmax ⊢
              omega

theorem createLoop_succ_body (linkPairs : List Link) (minSize maxSize fuel : Nat)
    (u : List String) (c0 : String) (cgr : List String) :
    createLoop linkPairs minSize maxSize (fuel + 1) u (c0 :: cgr)
      = match computeCandidates (c0 :: cgr) u linkPairs with
        | [] => (padGroup minSize (c0 :: cgr) u).1 ::
            createLoop linkPairs minSize maxSize fuel (padGroup minSize (c0 :: cgr) u).2 []
        | c :: _ =>
          if maxSize ≤ (c0 :: cgr).length then
            (padGroup minSize (c0 :: cgr) u).1 ::
              createLoop linkPairs minSize maxSize fuel (padGroup minSize (c0 :: cgr) u).2 []
          else createLoop linkPairs minSize maxSize fuel (u.erase c) ((c0 :: cgr) ++ [c]) := rfl

theorem createLoop_finalize_none {linkPairs : List Link} {minSize maxSize : Nat}
    {u : List String} {c0 : String} {cgr : List String}
    (hc : computeCandidates (c0 :: cgr) u linkPairs = []) (fuel : Nat) :
    createLoop linkPairs minSize maxSize (fuel + 1) u (c0 :: cgr)
      = (padGroup minSize (c0 :: cgr) u).1 ::
          createLoop linkPairs minSize maxSize fuel (padGroup minSize (c0 :: cgr) u).2 [] := by
  rw [createLoop_succ_body, hc]

theorem createLoop_finalize_max {linkPairs : List Link} {minSize maxSize : Nat}
    {u : List String} {c0 : String} {cgr : List String} {c : String} {cs : List String}
    (hc : computeCandidates (c0 :: cgr) u linkPairs = c :: cs)
    (hmax : maxSize ≤ (c0 :: cgr).length) (fuel : Nat) :
    createLoop linkPairs minSize maxSize (fuel + 1) u (c0 :: cgr)
      = (padGroup minSize (c0 :: cgr) u).1 ::
          createLoop linkPairs minSize maxSize fuel (padGroup minSize (c0 :: cgr) u).2 [] := by
  rw [createLoop_succ_body, hc]
  exact if_pos hmax

theorem createLoop_grow {linkPairs : List Link} {minSize maxSize : Nat}
    {u : List String} {c0 : String} {cgr : List String} {c : String} {cs : List String}
    (hc : computeCandidates (c0 :: cgr) u linkPairs = c :: cs)
    (hmax : ¬ maxSize ≤ (c0 :: cgr).length) (fuel : Nat) :
    createLoop linkPairs minSize maxSize (fuel + 1) u (c0 :: cgr)
      = createLoop linkPairs minSize maxSize fuel (u.erase c) ((c0 :: cgr) ++ [c]) := by
  rw [createLoop_succ_body, hc]
  exact if_neg hmax

/-- Adding fuel beyond the loop variant `2 * |unassigned| + [currentGroup nonempty]`
does not change `createLoop`: the fuel `createConnectedGroups` supplies is
enough to run the source loop to completion. -/
theorem createLoop_fuel (linkPairs : List Link) (minSize maxSize : Nat) :
    ∀ (fuel : Nat) (unassigned currentGroup : List String),
    2 * unassigned.length + (if currentGroup = [] then 0 else 1) < fuel →
    createLoop linkPairs minSize maxSize (fuel + 1) unassigned currentGroup
      = createLoop linkPairs minSize maxSize fuel unassigned currentGroup := by
  intro fuel
  induction fuel with
  | zero => intro u cg hf; omega
  | succ n ih =>
      intro u cg hf
      cases cg with
      | nil =>
          cases u with
          | nil => simp [createLoop]
          | cons x rest =>
              show createLoop linkPairs minSize maxSize (n + 1 + 1) (x :: rest) []
                = createLoop linkPairs minSize maxSize (n + 1) (x :: rest) []
              have h1 : createLoop linkPairs minSize maxSize (n + 1 + 1) (x :: rest) []
                  = createLoop linkPairs minSize maxSize (n + 1) rest [x] := rfl
              have h2 : createLoop linkPairs minSize maxSize (n + 1) (x :: rest) []
                  = createLoop linkPairs minSize maxSize n rest [x] := rfl
              rw [h1, h2]
              exact ih rest [x] (by simp at hf ⊢; omega)
      | cons c0 cgr =>
          rcases hc : computeCandidates (c0 :: cgr) u linkPairs with _ | ⟨c, cs⟩
          · rw [createLoop_finalize_none hc (n + 1), createLoop_finalize_none hc n]
            exact congrArg _ (ih (padGroup minSize (c0 :: cgr) u).2 []
              (by have := padGroup_snd_le minSize u (c0 :: cgr); simp at hf ⊢; omega))
          · by_cases hmax : maxSize ≤ (c0 :: cgr).length
            · rw [createLoop_finalize_max hc hmax (n + 1), createLoop_finalize_max hc hmax n]
              exact congrArg _ (ih (padGroup minSize (c0 :: cgr) u).2 []
                (by have := padGroup_snd_le minSize u (c0 :: cgr); simp at hf ⊢; omega))
            · rw [createLoop_grow hc hmax (n + 1), createLoop_grow hc hmax n]
              have hcmem : c ∈ u := by
                refine computeCandidates_subset (c0 :: cgr) u linkPairs c ?_
                rw [hc]; simp
              have herase : (u.erase c).length = u.length - 1 := List.length_erase_of_mem hcmem
              have hulen : 1 ≤ u.length := List.length_pos.mpr (by rintro rfl; cases hcmem)
              exact ih (u.erase c) ((c0 :: cgr) ++ [c]) (by simp at hf ⊢; omega)

-- ### The pair enumeration of the merger

theorem rowPairs_mem (n : Nat) (p : Nat × Nat) :
    p ∈ rowPairs n ↔ p.1 < p.2 ∧ p.2 < n := by
  unfold rowPairs
  rw [List.mem_filter]
  constructor
  · rintro ⟨hmem, hlt⟩
    rcases List.mem_flatMap.mp hmem with ⟨i, hi, hp⟩
    rcases List.mem_map.mp hp with ⟨j, hj, rfl⟩
    simp only [decide_eq_true_eq] at hlt
    exact ⟨hlt, List.mem_range.mp hj⟩
  · rintro ⟨h12, h2n⟩
    refine ⟨List.mem_flatMap.mpr ⟨p.1, List.mem_range.mpr (by omega), ?_⟩, by simpa using h12⟩
    exact List.mem_map.mpr ⟨p.2, List.mem_range.mpr h2n, rfl⟩

theorem pairLt_irrefl (p : Nat × Nat) : ¬ pairLt p p := by
  unfold pairLt; omega

theorem pairLt_asymm {p q : Nat × Nat} (h : pairLt p q) : ¬ pairLt q p := by
  unfold pairLt at h ⊢; omega

theorem pairwise_product_pairs (n : Nat) :
    ∀ li : List Nat, List.Pairwise (· < ·) li →
    List.Pairwise pairLt (li.flatMap fun i => (List.range n).map fun j => (i, j)) := by
  intro li
  induction li with
  | nil => intro _; simp
  | cons i rest ih =>
      intro hpw
      rw [List.flatMap_cons, List.pairwise_append]
      refine ⟨?_, ih (List.pairwise_cons.mp hpw).2, ?_⟩
      · rw [List.pairwise_map]
        refine (List.pairwise_lt_range n).imp ?_
        intro a b hab
        exact Or.inr ⟨rfl, hab⟩
      · intro a ha b hb
        rcases List.mem_map.mp ha with ⟨x, _, rfl⟩
        rcases List.mem_flatMap.mp hb with ⟨i', hi', hb'⟩
        rcases List.mem_map.mp hb' with ⟨y, _, rfl⟩
        exact Or.inl ((List.pairwise_cons.mp hpw).1 i' hi')

theorem rowPairs_pairwise (n : Nat) : List.Pairwise pairLt (rowPairs n) :=
  List.Pairwise.filter _ (pairwise_product_pairs n (List.range n) (List.pairwise_lt_range n))

-- ### The merge action

theorem getD_eraseIdx_of_lt (l : List (List String)) :
    ∀ (i j : Nat), i < j → (l.eraseIdx j).getD i [] = l.getD i [] := by
  induction l with
  | nil => intro i j _; simp [List.eraseIdx]
  | cons a t ih =>
      intro i j hij
      cases j with
      | zero => omega
      | succ jj =>
          rw [List.eraseIdx_cons_succ]
          cases i with
          | zero => simp
          | succ ii =>
              simp only [List.getD_cons_succ]
              exact ih ii jj (by omega)

theorem flatten_eraseIdx_perm :
    ∀ (t : List (List String)) (k : Nat), k < t.length →
    ((t.eraseIdx k).flatten ++ t.getD k []).Perm t.flatten := by
  intro t
  induction t with
  | nil => intro k hk; simp at hk
  | cons a t' ih =>
      intro k hk
      cases k with
      | zero =>
          simp only [List.eraseIdx_cons_zero, List.getD_cons_zero, List.flatten_cons]
          exact List.perm_append_comm
      | succ kk =>
          rw [List.eraseIdx_cons_succ, List.getD_cons_succ, List.flatten_cons,
            List.append_assoc]
          exact (ih kk (by simpa using hk)).append_left a

theorem mergeStep_length {groups : List (List String)} {i j : Nat} (hij : i < j)
    (hj : j < groups.length) : (mergeStep groups i j).length = groups.length - 1 := by
  unfold mergeStep
  have h1 : (groups.eraseIdx j).length = groups.length - 1 := by
    rw [List.length_eraseIdx]
    simp [hj]
  have h2 : ((groups.eraseIdx j).eraseIdx i).length = groups.length - 2 := by
    rw [List.length_eraseIdx]
    rw [h1]
    have : i < groups.length - 1 := by omega
    simp [this]
    omega
  simp [h2]
  omega

theorem mergeStep_flatten_perm {groups : List (List String)} {i j : Nat} (hij : i < j)
    (hj : j < groups.length) : ((mergeStep groups i j).flatten).Perm groups.flatten := by
  unfold mergeStep
  have hgetD : (groups.eraseIdx j).getD i [] = groups.getD i [] :=
    getD_eraseIdx_of_lt groups i j hij
  have hlen1 : (groups.eraseIdx j).length = groups.length - 1 := by
    rw [List.length_eraseIdx]; simp [hj]
  have hi1 : i < (groups.eraseIdx j).length := by omega
  have hstep1 := flatten_eraseIdx_perm (groups.eraseIdx j) i hi1
  have hstep2 := flatten_eraseIdx_perm groups j hj
  rw [hgetD] at hstep1
  have hflat : (((groups.eraseIdx j).eraseIdx i) ++ [groups.getD i [] ++ groups.getD j []]).flatten
      = (((groups.eraseIdx j).eraseIdx i).flatten ++ groups.getD i []) ++ groups.getD j [] := by
    simp
  rw [hflat]
  exact (hstep1.append_right _).trans hstep2

-- ### The best-pair search

theorem bestStep_inv (groups : List (List String)) (linkPairs : List Link) (maxSize : Nat)
    {st : Int × Option (Nat × Nat)} {processed : List (Nat × Nat)} {q : Nat × Nat}
    (hinv : BestInv groups linkPairs maxSize st processed)
    (hbefore : ∀ p ∈ processed, pairLt p q) :
    BestInv groups linkPairs maxSize (bestStep groups linkPairs maxSize st q)
      (processed ++ [q]) := by
  unfold bestStep
  by_cases helig : (groups.getD q.1 []).length + (groups.getD q.2 []).length ≤ maxSize
  · rw [if_pos helig]
    simp only []
    by_cases hscore : st.1 < (countConnectionsBetweenGroups (groups.getD q.1 [])
      (groups.getD q.2 []) linkPairs : Int)
    · rw [if_pos hscore]
      constructor
      · intro h; cases h
      · intro q' hq'
        have hq'q : q = q' := by
          simpa using hq'
        subst hq'q
        refine ⟨by simp, helig, rfl, ?_⟩
        intro p hp hpe
        rcases List.mem_append.mp hp with hp | hp
        · rcases hst : st.2 with _ | q0
          · have h0 := hinv.1 hst
            exact absurd hpe (h0.2 p hp)
          · have h0 := hinv.2 q0 hst
            have hle : pairScore groups linkPairs p ≤ pairScore groups linkPairs q0 :=
              (h0.2.2.2 p hp hpe).1
            have hlt : pairScore groups linkPairs q0 < pairScore groups linkPairs q := by
              have := h0.2.2.1
              rw [this] at hscore
              exact_mod_cast hscore
            constructor
            · unfold pairScore at hle hlt ⊢
              omega
            · intro heq
              unfold pairScore at hle hlt heq
              omega
        · have hp' : p = q := by simpa using hp
          subst hp'
          exact ⟨le_refl _, fun _ => pairLt_irrefl p⟩
    · rw [if_neg hscore]
      constructor
      · intro hst
        have h0 := hinv.1 hst
        rw [h0.1] at hscore
        exact absurd (show (-1 : Int) < (countConnectionsBetweenGroups (groups.getD q.1 [])
          (groups.getD q.2 []) linkPairs : Int) by omega) hscore
      · intro q' hq'
        have h0 := hinv.2 q' hq'
        refine ⟨List.mem_append.mpr (Or.inl h0.1), h0.2.1, h0.2.2.1, ?_⟩
        intro p hp hpe
        rcases List.mem_append.mp hp with hp | hp
        · exact h0.2.2.2 p hp hpe
        · have hp' : p = q := by simpa using hp
          subst hp'
          have hle : pairScore groups linkPairs p ≤ pairScore groups linkPairs q' := by
            have h1 := h0.2.2.1
            rw [h1] at hscore
            unfold pairScore countConnectionsBetweenGroups at hscore ⊢
            omega
          refine ⟨hle, fun _ => ?_⟩
          exact pairLt_asymm (hbefore q' h0.1)
  · rw [if_neg helig]
    constructor
    · intro hst
      have h0 := hinv.1 hst
      refine ⟨h0.1, ?_⟩
      intro p hp
      rcases List.mem_append.mp hp with hp | hp
      · exact h0.2 p hp
      · have hp' : p = q := by simpa using hp
        subst hp'
        exact helig
    · intro q' hq'
      have h0 := hinv.2 q' hq'
      refine ⟨List.mem_append.mpr (Or.inl h0.1), h0.2.1, h0.2.2.1, ?_⟩
      intro p hp hpe
      rcases List.mem_append.mp hp with hp | hp
      · exact h0.2.2.2 p hp hpe
      · have hp' : p = q := by simpa using hp
        subst hp'
        exact absurd hpe helig

theorem bestFold_inv (groups : List (List String)) (linkPairs : List Link) (maxSize : Nat) :
    ∀ (l processed : List (Nat × Nat)) (st : Int × Option (Nat × Nat)),
    BestInv groups linkPairs maxSize st processed →
    (∀ p ∈ processed, ∀ r ∈ l, pairLt p r) → List.Pairwise pairLt l →
    BestInv groups linkPairs maxSize (l.foldl (bestStep groups linkPairs maxSize) st)
      (processed ++ l) := by
  intro l
  induction l with
  | nil => intro processed st hinv _ _; simpa using hinv
  | cons q rest ih =>
      intro processed st hinv hcross hpw
      rw [List.foldl_cons]
      have hstep := bestStep_inv groups linkPairs maxSize hinv
        (fun p hp => hcross p hp q (by simp))
      have := ih (processed ++ [q]) _ hstep ?_ (List.pairwise_cons.mp hpw).2
      · simpa using this
      · intro p hp r hr
        rcases List.mem_append.mp hp with hp | hp
        · exact hcross p hp r (by simp [hr])
        · have hp' : p = q := by simpa using hp
          subst hp'
          exact (List.pairwise_cons.mp hpw).1 r hr

theorem findBestPair_inv (groups : List (List String)) (linkPairs : List Link) (maxSize : Nat) :
    BestInv groups linkPairs maxSize
      ((rowPairs groups.length).foldl (bestStep groups linkPairs maxSize) (-1, none))
      (rowPairs groups.length) := by
  have h0 : BestInv groups linkPairs maxSize (-1, none) [] := by
    constructor
    · intro _; exact ⟨rfl, by simp⟩
    · intro q hq; cases hq
  have := bestFold_inv groups linkPairs maxSize (rowPairs groups.length) [] (-1, none) h0
    (by simp) (rowPairs_pairwise groups.length)
  simpa using this

theorem findBestPair_spec_some {groups : List (List String)} {linkPairs : List Link}
    {maxSize : Nat} {i j : Nat} (h : findBestPair groups linkPairs maxSize = some (i, j)) :
    i < j ∧ j < groups.length ∧ eligPair groups maxSize (i, j) ∧
    (∀ p : Nat × Nat, p.1 < p.2 → p.2 < groups.length → eligPair groups maxSize p →
      pairScore groups linkPairs p ≤ pairScore groups linkPairs (i, j) ∧
      (pairScore groups linkPairs p = pairScore groups linkPairs (i, j) → ¬ pairLt p (i, j))) := by
  have hinv := findBestPair_inv groups linkPairs maxSize
  unfold findBestPair at h
  have h0 := hinv.2 (i, j) h
  have hbounds := (rowPairs_mem groups.length (i, j)).mp h0.1
  refine ⟨hbounds.1, hbounds.2, h0.2.1, ?_⟩
  intro p hp1 hp2 hpe
  exact h0.2.2.2 p ((rowPairs_mem groups.length p).mpr ⟨hp1, hp2⟩) hpe

theorem findBestPair_spec_none {groups : List (List String)} {linkPairs : List Link}
    {maxSize : Nat} (h : findBestPair groups linkPairs maxSize = none) :
    ∀ p : Nat × Nat, p.1 < p.2 → p.2 < groups.length → ¬ eligPair groups maxSize p := by
  have hinv := findBestPair_inv groups linkPairs maxSize
  unfold findBestPair at h
  intro p hp1 hp2
  exact (hinv.1 h).2 p ((rowPairs_mem groups.length p).mpr ⟨hp1, hp2⟩)

-- ### The merge loop

theorem mergeLoop_flatten_perm (linkPairs : List Link) (maxSize targetGroupCount : Nat) :
    ∀ (fuel : Nat) (groups : List (List String)),
    ((mergeLoop linkPairs maxSize targetGroupCount fuel groups).flatten).Perm groups.flatten := by
  intro fuel
  induction fuel with
  | zero => intro groups; simp [mergeLoop]
  | succ n ih =>
      intro groups
      simp only [mergeLoop]
      by_cases hlen : groups.length ≤ targetGroupCount
      · rw [if_pos hlen]
      · rw [if_neg hlen]
        rcases hbp : findBestPair groups linkPairs maxSize with _ | ⟨i, j⟩
        · exact List.Perm.refl _
        · have hspec := findBestPair_spec_some hbp
          exact (ih (mergeStep groups i j)).trans
            (mergeStep_flatten_perm hspec.1 hspec.2.1)

theorem mergeLoop_length_le (linkPairs : List Link) (maxSize targetGroupCount : Nat) :
    ∀ (fuel : Nat) (groups : List (List String)),
    (mergeLoop linkPairs maxSize targetGroupCount fuel groups).length ≤ groups.length := by
  intro fuel
  induction fuel with
  | zero => intro groups; simp [mergeLoop]
  | succ n ih =>
      intro groups
      simp only [mergeLoop]
      by_cases hlen : groups.length ≤ targetGroupCount
      · rw [if_pos hlen]
      · rw [if_neg hlen]
        rcases hbp : findBestPair groups linkPairs maxSize with _ | ⟨i, j⟩
        · exact le_refl _
        · have hspec := findBestPair_spec_some hbp
          have hml := mergeStep_length hspec.1 hspec.2.1
          have := ih (mergeStep groups i j)
          show (mergeLoop linkPairs maxSize targetGroupCount n (mergeStep groups i j)).length
            ≤ groups.length
          omega

theorem mergeLoop_sizes (linkPairs : List Link) (maxSize targetGroupCount : Nat) :
    ∀ (fuel : Nat) (groups : List (List String)),
    (∀ g ∈ groups, g.length ≤ maxSize) →
    ∀ g ∈ mergeLoop linkPairs maxSize targetGroupCount fuel groups, g.length ≤ maxSize := by
  intro fuel
  induction fuel with
  | zero => intro groups h; simpa [mergeLoop] using h
  | succ n ih =>
      intro groups h
      simp only [mergeLoop]
      by_cases hlen : groups.length ≤ targetGroupCount
      · rw [if_pos hlen]; exact h
      · rw [if_neg hlen]
        rcases hbp : findBestPair groups linkPairs maxSize with _ | ⟨i, j⟩
        · exact h
        · have hspec := findBestPair_spec_some hbp
          refine ih (mergeStep groups i j) ?_
          intro g hg
          unfold mergeStep at hg
          rcases List.mem_append.mp hg with hg | hg
          · exact h g (((List.eraseIdx_sublist _ i).trans (List.eraseIdx_sublist _ j)).subset hg)
          · have hg' : g = groups.getD i [] ++ groups.getD j [] := by simpa using hg
            subst hg'
            have he : eligPair groups maxSize (i, j) := hspec.2.2.1
            unfold eligPair at he
            simpa using he

/-- Adding fuel beyond `groups.length` does not change `mergeLoop`: the
fuel `mergeGroups` supplies is enough to run the source loop to
completion. -/
theorem mergeLoop_fuel (linkPairs : List Link) (maxSize targetGroupCount : Nat) :
    ∀ (fuel : Nat) (groups : List (List String)), groups.length ≤ fuel →
    mergeLoop linkPairs maxSize targetGroupCount fuel groups
      = mergeGroups groups linkPairs maxSize targetGroupCount := by
  intro fuel
  induction fuel with
  | zero =>
      intro groups hf
      have : groups = [] := List.length_eq_zero.mp (by omega)
      subst this
      simp [mergeLoop, mergeGroups]
  | succ n ih =>
      intro groups hf
      unfold mergeGroups
      rcases hlen : groups.length with _ | m
      · have : groups = [] := List.length_eq_zero.mp hlen
        subst this
        simp [mergeLoop]
      · by_cases htc : groups.length ≤ targetGroupCount
        · have h1 : mergeLoop linkPairs maxSize targetGroupCount (n + 1) groups = groups := by
            simp only [mergeLoop]
            rw [if_pos htc]
          have h2 : mergeLoop linkPairs maxSize targetGroupCount (m + 1) groups = groups := by
            simp only [mergeLoop]
            rw [if_pos htc]
          rw [h1, h2]
        · rcases hbp : findBestPair groups linkPairs maxSize with _ | ⟨i, j⟩
          · have h1 : mergeLoop linkPairs maxSize targetGroupCount (n + 1) groups = groups := by
              simp only [mergeLoop]
              rw [if_neg htc, hbp]
            have h2 : mergeLoop linkPairs maxSize targetGroupCount (m + 1) groups = groups := by
              simp only [mergeLoop]
              rw [if_neg htc, hbp]
            rw [h1, h2]
          · have hspec := findBestPair_spec_some hbp
            have hml := mergeStep_length hspec.1 hspec.2.1
            have h1 : mergeLoop linkPairs maxSize targetGroupCount (n + 1) groups
                = mergeLoop linkPairs maxSize targetGroupCount n (mergeStep groups i j) := by
              simp only [mergeLoop]
              rw [if_neg htc, hbp]
            have h2 : mergeLoop linkPairs maxSize targetGroupCount (m + 1) groups
                = mergeLoop linkPairs maxSize targetGroupCount m (mergeStep groups i j) := by
              simp only [mergeLoop]
              rw [if_neg htc, hbp]
            rw [h1, h2]
            have hrec1 : mergeLoop linkPairs maxSize targetGroupCount n (mergeStep groups i j)
                = mergeGroups (mergeStep groups i j) linkPairs maxSize targetGroupCount := by
              refine ih (mergeStep groups i j) ?_
              omega
            have hrec2 : mergeLoop linkPairs maxSize targetGroupCount m (mergeStep groups i j)
                = mergeGroups (mergeStep groups i j) linkPairs maxSize targetGroupCount := by
              have hmlen : (mergeStep groups i j).length = m := by omega
              unfold mergeGroups
              rw [hmlen]
            rw [hrec1, hrec2]

-- ### Analytics

theorem getConnectionsForName_count (name : String) :
    ∀ conns : List Link, getConnectionsForName name conns = specDegreeOnce name conns := by
  intro conns
  induction conns with
  | nil => rfl
  | cons c rest ih =>
      unfold getConnectionsForName specDegreeOnce at ih ⊢
      rw [List.filter_cons, List.map_cons, List.sum_cons]
      by_cases hc : c.source = name ∨ c.target = name
      · have hd : (decide (c.source = name ∨ c.target = name)) = true := decide_eq_true hc
        rw [if_pos hc, hd, if_pos rfl, List.length_cons, ih]
        omega
      · have hd : (decide (c.source = name ∨ c.target = name)) = false := decide_eq_false hc
        rw [if_neg hc, hd]
        simp only [Bool.false_eq_true, if_false]
        rw [ih]
        omega

-- ### Deduplication keeps first occurrences; the map keeps last values

theorem firstSeen_filter (x : String) :
    ∀ l : List String,
    firstSeen (l.filter fun y => decide (y ≠ x))
      = (firstSeen l).filter fun y => decide (y ≠ x) := by
  intro l
  induction l with
  | nil => rfl
  | cons y rest ih =>
      rw [List.filter_cons]
      rw [show firstSeen (y :: rest) = y :: ((firstSeen rest).filter fun z => decide (z ≠ y))
          from rfl]
      rw [List.filter_cons]
      by_cases hyx : y = x
      · subst hyx
        have hd : (decide (y ≠ y)) = false := by simp
        rw [hd]
        simp only [Bool.false_eq_true, if_false]
        rw [ih, List.filter_filter]
        refine (List.filter_congr ?_).symm
        intro a _
        exact Bool.and_self _
      · have hd : (decide (y ≠ x)) = true := by simp [hyx]
        rw [hd]
        simp only [if_true]
        rw [show firstSeen (y :: rest.filter fun z => decide (z ≠ x))
            = y :: ((firstSeen (rest.filter fun z => decide (z ≠ x))).filter
                fun z => decide (z ≠ y)) from rfl]
        rw [ih, List.filter_filter, List.filter_filter]
        congr 1
        refine List.filter_congr ?_
        intro a _
        exact Bool.and_comm _ _

theorem foldl_setAdd_firstSeen :
    ∀ (l acc : List String),
    List.foldl setAdd acc l = acc ++ firstSeen (l.filter fun y => decide (y ∉ acc)) := by
  intro l
  induction l with
  | nil => intro acc; simp [firstSeen]
  | cons x rest ih =>
      intro acc
      rw [List.foldl_cons]
      by_cases hx : x ∈ acc
      · rw [show setAdd acc x = acc from by simp [setAdd, hx]]
        rw [ih acc, List.filter_cons]
        have : (decide (x ∉ acc) : Bool) = false := by simp [hx]
        rw [this]
        simp
      · rw [show setAdd acc x = acc ++ [x] from by simp [setAdd, hx]]
        rw [ih (acc ++ [x]), List.filter_cons]
        have : (decide (x ∉ acc) : Bool) = true := by simp [hx]
        rw [this]
        simp only [if_true]
        have hpred : (rest.filter fun y => decide (y ∉ acc ++ [x]))
            = (rest.filter fun y => decide (y ∉ acc)).filter fun y => decide (y ≠ x) := by
          rw [List.filter_filter]
          refine List.filter_congr ?_
          intro y _
          by_cases h1 : y = x
          · subst h1; simp
          · by_cases h2 : y ∈ acc <;> simp [h1, h2]
        rw [hpred, firstSeen_filter]
        rw [show firstSeen (x :: rest.filter fun y => decide (y ∉ acc))
            = x :: (firstSeen (rest.filter fun y => decide (y ∉ acc))).filter
                (fun z => decide (z ≠ x)) from rfl]
        simp

theorem jsDedup_eq_firstSeen (l : List String) : jsDedup l = firstSeen l := by
  unfold jsDedup
  rw [foldl_setAdd_firstSeen l []]
  simp

theorem mapLookup_mapSet (k v : String) :
    ∀ (m : List (String × String)) (q : String),
    mapLookup (mapSet m k v) q = if k = q then some v else mapLookup m q := by
  intro m
  induction m with
  | nil =>
      intro q
      by_cases h : k = q <;> simp [mapSet, mapLookup, h]
  | cons e rest ih =>
      intro q
      unfold mapSet
      by_cases h1 : e.1 = k
      · rw [if_pos h1]
        by_cases h2 : k = q
        · simp [mapLookup, h2]
        · have h3 : e.1 ≠ q := by rw [h1]; exact h2
          simp [mapLookup, h2, h3, h1]
      · rw [if_neg h1]
        by_cases h2 : e.1 = q
        · have h3 : ¬ k = q := by rw [← h2]; intro hc; exact h1 hc.symm
          simp [mapLookup, h2, h3]
        · simp [mapLookup, h2, ih]

theorem lastGenderOf_cons (a : String × String) (rest : List (String × String)) (k : String) :
    lastGenderOf (a :: rest) k
      = match lastGenderOf rest k with
        | some v => some v
        | none => if a.1 = k then some a.2 else none := by
  unfold lastGenderOf
  rw [List.reverse_cons, List.find?_append]
  rcases hf : rest.reverse.find? fun r => r.1 == k with _ | r0
  · simp only [hf, Option.none_orElse]
    by_cases h : a.1 = k
    · have hb : (a.1 == k) = true := by simp [h]
      simp [List.find?, hb, h]
    · have hb : (a.1 == k) = false := by simp [h]
      simp [List.find?, hb, h]
  · simp [hf]

theorem mapLookup_fold :
    ∀ (records : List (String × String)) (m : List (String × String)) (k : String),
    mapLookup (records.foldl (fun acc r => mapSet acc r.1 r.2) m) k
      = match lastGenderOf records k with
        | some v => some v
        | none => mapLookup m k := by
  intro records
  induction records with
  | nil => intro m k; simp [lastGenderOf, mapLookup]
  | cons r rest ih =>
      intro m k
      rw [List.foldl_cons, ih, lastGenderOf_cons]
      rcases hrest : lastGenderOf rest k with _ | v
      · simp only []
        rw [mapLookup_mapSet]
        by_cases h : r.1 = k
        · simp [h]
        · have h' : ¬ r.1 = k := h
          simp [h']
      · simp

-- ### Fail-fast validation

theorem mapME_cons {β : Type} (f : String → Except String β) (x : String) (rest : List String) :
    mapME f (x :: rest)
      = match f x with
        | Except.error e => Except.error e
        | Except.ok b =>
          match mapME f rest with
          | Except.error e => Except.error e
          | Except.ok bs => Except.ok (b :: bs) := rfl

theorem mapME_error_of_mem {β : Type} (f : String → Except String β) :
    ∀ l : List String, (∃ x ∈ l, ∃ e, f x = Except.error e) →
    ∃ e, mapME f l = Except.error e := by
  intro l
  induction l with
  | nil => rintro ⟨x, hx, _⟩; cases hx
  | cons y rest ih =>
      rintro ⟨x, hx, e, he⟩
      rw [mapME_cons]
      rcases hy : f y with ey | b
      · exact ⟨ey, rfl⟩
      · rcases List.mem_cons.mp hx with rfl | hx
        · rw [hy] at he; cases he
        · rcases ih ⟨x, hx, e, he⟩ with ⟨e', he'⟩
          rw [he']
          exact ⟨e', rfl⟩

theorem parseLinkLine_unknown {uniqueNames : List String} {line : String}
    (h1 : (splitFields line).1 ≠ "") (h2 : (splitFields line).2 ≠ "")
    (h3 : (splitFields line).1 ∉ uniqueNames ∨ (splitFields line).2 ∉ uniqueNames) :
    parseLinkLine uniqueNames line
      = Except.error ("Link contains name not in names list: "
          ++ (splitFields line).1 ++ " or " ++ (splitFields line).2) := by
  unfold parseLinkLine
  rw [if_neg (by tauto), if_pos h3]

theorem parseLinkLine_known {uniqueNames : List String} {line : String}
    (hne1 : (splitFields line).1 ≠ "") (hne2 : (splitFields line).2 ≠ "")
    (h1 : (splitFields line).1 ∈ uniqueNames) (h2 : (splitFields line).2 ∈ uniqueNames) :
    parseLinkLine uniqueNames line
      = Except.ok ⟨(splitFields line).1, (splitFields line).2⟩ := by
  unfold parseLinkLine
  rw [if_neg (by tauto), if_neg (by tauto)]

theorem mapME_links_unknown (uniqueNames : List String) :
    ∀ lines : List String,
    (∀ line ∈ lines, (splitFields line).1 ≠ "" ∧ (splitFields line).2 ≠ "") →
    (∃ line ∈ lines, (splitFields line).1 ∉ uniqueNames ∨ (splitFields line).2 ∉ uniqueNames) →
    ∃ s t, mapME (parseLinkLine uniqueNames) lines
        = Except.error ("Link contains name not in names list: " ++ s ++ " or " ++ t)
      ∧ (s ∉ uniqueNames ∨ t ∉ uniqueNames) := by
  intro lines
  induction lines with
  | nil => rintro _ ⟨x, hx, _⟩; cases hx
  | cons y rest ih =>
      intro hfields hbad
      have hy := hfields y (by simp)
      rw [mapME_cons]
      by_cases hk : (splitFields y).1 ∉ uniqueNames ∨ (splitFields y).2 ∉ uniqueNames
      · rw [parseLinkLine_unknown hy.1 hy.2 hk]
        exact ⟨(splitFields y).1, (splitFields y).2, rfl, hk⟩
      · push_neg at hk
        rw [parseLinkLine_known hy.1 hy.2 hk.1 hk.2]
        have hbad' : ∃ line ∈ rest,
            (splitFields line).1 ∉ uniqueNames ∨ (splitFields line).2 ∉ uniqueNames := by
          rcases hbad with ⟨line, hline, hu⟩
          rcases List.mem_cons.mp hline with rfl | hline
          · rcases hu with hu | hu
            · exact absurd hk.1 hu
            · exact absurd hk.2 hu
          · exact ⟨line, hline, hu⟩
        rcases ih (fun l hl => hfields l (by simp [hl])) hbad' with ⟨s, t, herr, hnot⟩
        rw [herr]
        exact ⟨s, t, rfl, hnot⟩

-- ### Intermediate forms of `processInput`

theorem processInput_entities_error {nameLines : List String} {e : String}
    (h : parseEntities nameLines = Except.error e) (linkLines : List String)
    (minGroupSize maxGroupSize maxGroups : Int) :
    processInput nameLines linkLines minGroupSize maxGroupSize maxGroups = Except.error e := by
  unfold processInput
  rw [h]

theorem processInput_entities_ok {nameLines : List String}
    {records : List (String × String)} (h : parseEntities nameLines = Except.ok records)
    (linkLines : List String) (minGroupSize maxGroupSize maxGroups : Int) :
    processInput nameLines linkLines minGroupSize maxGroupSize maxGroups
      = (if minGroupSize ≤ 0 then
          Except.error "Minimum group size must be greater than 0"
        else if maxGroupSize < minGroupSize then
          Except.error "Maximum group size must be greater than or equal to minimum group size"
        else if maxGroups ≤ 0 then
          Except.error "Maximum number of groups must be greater than 0"
        else
          match parseLinks (jsDedup (records.map Prod.fst)) linkLines with
          | Except.error e => Except.error e
          | Except.ok linkPairs =>
            Except.ok (mkNodes
              (mergeGroups
                (createConnectedGroups (jsDedup (records.map Prod.fst)) linkPairs
                  minGroupSize.toNat maxGroupSize.toNat)
                linkPairs maxGroupSize.toNat maxGroups.toNat)
              (records.foldl (fun m r => mapSet m r.1 r.2) []), linkPairs)) := by
  unfold processInput
  rw [h]

-- ## The claims

/-- C1.  For every valid input (`minSize ≥ 1`, `maxSize ≥ minSize`,
`targetGroupCount ≥ 1`, duplicate-free entity list), the group list
produced by `createConnectedGroups` followed by `mergeGroups` partitions
the entity set: the concatenation of the final groups is a permutation
of the unique entity list and contains no duplicates, so every entity id
appears in exactly one group, with no omissions. -/
theorem pipeline_partition (uniqueNames : List String) (linkPairs : List Link)
    (minSize maxSize targetGroupCount : Nat)
    (hmin : 1 ≤ minSize) (hmax : minSize ≤ maxSize) (htg : 1 ≤ targetGroupCount)
    (hnd : uniqueNames.Nodup) :
    ((mergeGroups (createConnectedGroups uniqueNames linkPairs minSize maxSize)
        linkPairs maxSize targetGroupCount).flatten).Perm uniqueNames
    ∧ ((mergeGroups (createConnectedGroups uniqueNames linkPairs minSize maxSize)
        linkPairs maxSize targetGroupCount).flatten).Nodup := by
  have h1 : ((createConnectedGroups uniqueNames linkPairs minSize maxSize).flatten).Perm
      uniqueNames := by
    unfold createConnectedGroups
    rw [jsDedup_eq_self hnd]
    have hperm := createLoop_flatten_perm linkPairs minSize maxSize
      (2 * uniqueNames.length + 1) uniqueNames [] (by simp)
    simpa using hperm
  have h2 : ((mergeGroups (createConnectedGroups uniqueNames linkPairs minSize maxSize)
      linkPairs maxSize targetGroupCount).flatten).Perm
      ((createConnectedGroups uniqueNames linkPairs minSize maxSize).flatten) := by
    unfold mergeGroups
    exact mergeLoop_flatten_perm linkPairs maxSize targetGroupCount _ _
  have hperm := h2.trans h1
  exact ⟨hperm, (hperm.nodup_iff).mpr hnd⟩

/-- Witness for C1 at a concrete valid input. -/
theorem pipeline_partition_witness :
    ((mergeGroups (createConnectedGroups ["Ann", "Ben"] [] 1 1) [] 1 1).flatten).Perm
      ["Ann", "Ben"]
    ∧ ((mergeGroups (createConnectedGroups ["Ann", "Ben"] [] 1 1) [] 1 1).flatten).Nodup :=
  pipeline_partition ["Ann", "Ben"] [] 1 1 1 (by decide) (by decide) (by decide) (by decide)

/-- C2 counterexample.  With the single group `["A"]` and the single
self-link `A → A`, the displayed per-entity degree is `1`, while the
spec-side count in which a self-link contributes both endpoints is `2`:
the claim that the code counts a self-link twice is false. -/
theorem degree_selfLink_cx :
    ¬ (getConnectionsForName "A"
        (getConnectionsInGroup (mkNodes [["A"]] [("A", "F")]) [⟨"A", "A"⟩] 0)
      = specDegreeBoth "A"
        (getConnectionsInGroup (mkNodes [["A"]] [("A", "F")]) [⟨"A", "A"⟩] 0)) := by
  decide

/-- C2 as amended.  The per-entity degree within a group equals the
number of intra-group link occurrences touching that entity with every
occurrence counted once: a self-link contributes 1, not 2. -/
theorem degree_counts_each_link_once (name : String) (nodes : List Node)
    (connections : List Link) (groupId : Nat) :
    getConnectionsForName name (getConnectionsInGroup nodes connections groupId)
      = specDegreeOnce name (getConnectionsInGroup nodes connections groupId) :=
  getConnectionsForName_count name _

/-- C3 counterexample.  `mergeGroups` returns a group exceeding
`maxSize` when such a group is already present in its input: with
`maxSize = 1` and the single input group `["a", "b"]` the output
contains a group of size 2. -/
theorem mergeGroups_maxSize_cx :
    ¬ ∀ g ∈ mergeGroups [["a", "b"]] [] 1 1, g.length ≤ 1 := by
  decide

/-- C3 as amended.  `mergeGroups` never increases the group count, and
provided every input group already fits under `maxSize`, every output
group fits under `maxSize` as well (a merged pair is only formed when
the combined size fits). -/
theorem mergeGroups_length_and_sizes (groups : List (List String)) (linkPairs : List Link)
    (maxSize targetGroupCount : Nat) :
    (mergeGroups groups linkPairs maxSize targetGroupCount).length ≤ groups.length
    ∧ ((∀ g ∈ groups, g.length ≤ maxSize) →
        ∀ g ∈ mergeGroups groups linkPairs maxSize targetGroupCount, g.length ≤ maxSize) := by
  unfold mergeGroups
  exact ⟨mergeLoop_length_le linkPairs maxSize targetGroupCount groups.length groups,
    fun h => mergeLoop_sizes linkPairs maxSize targetGroupCount groups.length groups h⟩

/-- Witness for C3 (amended) at a concrete input. -/
theorem mergeGroups_length_and_sizes_witness :
    (mergeGroups [["a"], ["b"], ["c"]] [] 2 1).length ≤ 3
    ∧ ["a", "b"] ∈ mergeGroups [["a"], ["b"], ["c"]] [] 2 1
    ∧ (["a", "b"] : List String).length ≤ 2 :=
  ⟨(mergeGroups_length_and_sizes [["a"], ["b"], ["c"]] [] 2 1).1,
   by decide,
   (mergeGroups_length_and_sizes [["a"], ["b"], ["c"]] [] 2 1).2 (by decide)
     ["a", "b"] (by decide)⟩

/-- C4, Scenario A.  On entities `[Alice,F],[Bob,M],[Carol,F]`, links
`Alice-Bob`, `minSize = 2`, `maxSize = 3`, `targetGroupCount = 1`, the
pipeline produces one group with all three entities, the only
intra-group edge is `Alice-Bob`, and `Carol` is the one isolated entity,
with degree 0. -/
theorem scenarioA_pipeline :
    processInput ["Alice,F", "Bob,M", "Carol,F"] ["Alice,Bob"] 2 3 1
      = Except.ok ([⟨"Alice", "F", 0⟩, ⟨"Bob", "M", 0⟩, ⟨"Carol", "F", 0⟩],
          [⟨"Alice", "Bob"⟩])
    ∧ mergeGroups (createConnectedGroups ["Alice", "Bob", "Carol"] [⟨"Alice", "Bob"⟩] 2 3)
        [⟨"Alice", "Bob"⟩] 3 1 = [["Alice", "Bob", "Carol"]]
    ∧ getConnectionsInGroup [⟨"Alice", "F", 0⟩, ⟨"Bob", "M", 0⟩, ⟨"Carol", "F", 0⟩]
        [⟨"Alice", "Bob"⟩] 0 = [⟨"Alice", "Bob"⟩]
    ∧ getIsolatedMembers [⟨"Alice", "F", 0⟩, ⟨"Bob", "M", 0⟩, ⟨"Carol", "F", 0⟩]
        [⟨"Alice", "Bob"⟩] 0 = [⟨"Carol", "F", 0⟩]
    ∧ getConnectionsForName "Carol" (getConnectionsInGroup
        [⟨"Alice", "F", 0⟩, ⟨"Bob", "M", 0⟩, ⟨"Carol", "F", 0⟩] [⟨"Alice", "Bob"⟩] 0) = 0 :=
  ⟨rfl, by decide, by decide, by decide, by decide⟩

/-- C5.  While the group count exceeds the target and an eligible pair
exists, one `mergeGroups` iteration merges exactly the pair `(i, j)`
returned by the best-pair search: that pair is eligible
(combined size at most `maxSize`), no eligible pair scores strictly
higher, any eligible pair with an equal score does not precede it in the
row-major order (so the first such pair is chosen), and the list evolves
by removing both groups and appending their concatenation (first group's
entities then the second group's), which is what `mergeStep` does. -/
theorem mergeGroups_iteration (groups : List (List String)) (linkPairs : List Link)
    (maxSize targetGroupCount : Nat) (i j : Nat)
    (hgt : targetGroupCount < groups.length)
    (hfind : findBestPair groups linkPairs maxSize = some (i, j)) :
    mergeGroups groups linkPairs maxSize targetGroupCount
      = mergeGroups (mergeStep groups i j) linkPairs maxSize targetGroupCount
    ∧ i < j ∧ j < groups.length
    ∧ (groups.getD i []).length + (groups.getD j []).length ≤ maxSize
    ∧ (∀ i' j', i' < j' → j' < groups.length →
        (groups.getD i' []).length + (groups.getD j' []).length ≤ maxSize →
        countConnectionsBetweenGroups (groups.getD i' []) (groups.getD j' []) linkPairs
          ≤ countConnectionsBetweenGroups (groups.getD i []) (groups.getD j []) linkPairs)
    ∧ (∀ i' j', i' < j' → j' < groups.length →
        (groups.getD i' []).length + (groups.getD j' []).length ≤ maxSize →
        countConnectionsBetweenGroups (groups.getD i' []) (groups.getD j' []) linkPairs
          = countConnectionsBetweenGroups (groups.getD i []) (groups.getD j []) linkPairs →
        i ≤ i' ∧ (i' = i → j ≤ j')) := by
  have hspec := findBestPair_spec_some hfind
  rcases hspec with ⟨hij, hjn, helig, hmaxes⟩
  have hstep : mergeGroups groups linkPairs maxSize targetGroupCount
      = mergeGroups (mergeStep groups i j) linkPairs maxSize targetGroupCount := by
    have hm : ∃ m, groups.length = m + 1 := ⟨groups.length - 1, by omega⟩
    rcases hm with ⟨m, hm⟩
    have hL : mergeGroups groups linkPairs maxSize targetGroupCount
        = mergeLoop linkPairs maxSize targetGroupCount m (mergeStep groups i j) := by
      unfold mergeGroups
      rw [hm]
      simp only [mergeLoop]
      rw [if_neg (by omega), hfind]
    have hlenstep : (mergeStep groups i j).length = m := by
      rw [mergeStep_length hij hjn]
      omega
    have hR : mergeGroups (mergeStep groups i j) linkPairs maxSize targetGroupCount
        = mergeLoop linkPairs maxSize targetGroupCount m (mergeStep groups i j) := by
      unfold mergeGroups
      rw [hlenstep]
    rw [hL, hR]
  refine ⟨hstep, hij, hjn, helig, ?_, ?_⟩
  · intro i' j' h1 h2 h3
    exact (hmaxes (i', j') h1 h2 h3).1
  · intro i' j' h1 h2 h3 h4
    have := (hmaxes (i', j') h1 h2 h3).2 h4
    unfold pairLt at this
    simp only [not_or, not_and, not_lt] at this
    constructor
    · omega
    · intro he
      rcases this with ⟨ha, hb⟩
      have := hb he
      omega

/-- Witness for C5 at a concrete input where the second-scanned pair
wins on score. -/
theorem mergeGroups_iteration_witness :
    1 < ([["a"], ["b"], ["c"]] : List (List String)).length
    ∧ findBestPair [["a"], ["b"], ["c"]] [⟨"a", "c"⟩] 2 = some (0, 2)
    ∧ mergeGroups [["a"], ["b"], ["c"]] [⟨"a", "c"⟩] 2 1
        = mergeGroups (mergeStep [["a"], ["b"], ["c"]] 0 2) [⟨"a", "c"⟩] 2 1 :=
  ⟨by decide, by decide,
   (mergeGroups_iteration [["a"], ["b"], ["c"]] [⟨"a", "c"⟩] 2 1 0 2
     (by decide) (by decide)).1⟩

/-- C6.  Every validation failure aborts `processInput` with an error
and no groups are produced: a non-positive minimum size, a maximum size
below the minimum, a non-positive target group count, and a malformed
entity record each yield an error; and when the configuration and the
entity records are valid but some link line references a name absent
from the unique-name list, the run fails with the
unknown-entity-reference error, naming the offending fields — all of
these are detected before `createConnectedGroups` or `mergeGroups` run,
which in this formulation is visible in `processInput_entities_ok`:
the grouping computation only occurs in the final `Except.ok` branch. -/
theorem processInput_failFast (nameLines linkLines : List String)
    (minGroupSize maxGroupSize maxGroups : Int) :
    (minGroupSize ≤ 0 →
      ∃ e, processInput nameLines linkLines minGroupSize maxGroupSize maxGroups
        = Except.error e)
    ∧ (maxGroupSize < minGroupSize →
      ∃ e, processInput nameLines linkLines minGroupSize maxGroupSize maxGroups
        = Except.error e)
    ∧ (maxGroups ≤ 0 →
      ∃ e, processInput nameLines linkLines minGroupSize maxGroupSize maxGroups
        = Except.error e)
    ∧ ((∃ line ∈ nameLines.filter (fun l => trimStr l != ""),
        ∃ e, parseEntityLine line = Except.error e) →
      ∃ e, processInput nameLines linkLines minGroupSize maxGroupSize maxGroups
        = Except.error e)
    ∧ (∀ records : List (String × String), parseEntities nameLines = Except.ok records →
      0 < minGroupSize → minGroupSize ≤ maxGroupSize → 0 < maxGroups →
      (∀ line ∈ linkLines.filter (fun l => trimStr l != ""),
        (splitFields line).1 ≠ "" ∧ (splitFields line).2 ≠ "") →
      (∃ line ∈ linkLines.filter (fun l => trimStr l != ""),
        (splitFields line).1 ∉ jsDedup (records.map Prod.fst)
        ∨ (splitFields line).2 ∉ jsDedup (records.map Prod.fst)) →
      ∃ s t, processInput nameLines linkLines minGroupSize maxGroupSize maxGroups
          = Except.error ("Link contains name not in names list: " ++ s ++ " or " ++ t)
        ∧ (s ∉ jsDedup (records.map Prod.fst) ∨ t ∉ jsDedup (records.map Prod.fst))) := by
  refine ⟨?_, ?_, ?_, ?_, ?_⟩
  · intro hmin
    rcases hpe : parseEntities nameLines with e | records
    · exact ⟨e, processInput_entities_error hpe _ _ _ _⟩
    · refine ⟨"Minimum group size must be greater than 0", ?_⟩
      rw [processInput_entities_ok hpe, if_pos hmin]
  · intro hmm
    rcases hpe : parseEntities nameLines with e | records
    · exact ⟨e, processInput_entities_error hpe _ _ _ _⟩
    · by_cases hmin : minGroupSize ≤ 0
      · refine ⟨"Minimum group size must be greater than 0", ?_⟩
        rw [processInput_entities_ok hpe, if_pos hmin]
      · refine ⟨"Maximum group size must be greater than or equal to minimum group size", ?_⟩
        rw [processInput_entities_ok hpe, if_neg hmin, if_pos hmm]
  · intro htg
    rcases hpe : parseEntities nameLines with e | records
    · exact ⟨e, processInput_entities_error hpe _ _ _ _⟩
    · by_cases hmin : minGroupSize ≤ 0
      · refine ⟨"Minimum group size must be greater than 0", ?_⟩
        rw [processInput_entities_ok hpe, if_pos hmin]
      · by_cases hmm : maxGroupSize < minGroupSize
        · refine ⟨"Maximum group size must be greater than or equal to minimum group size", ?_⟩
          rw [processInput_entities_ok hpe, if_neg hmin, if_pos hmm]
        · refine ⟨"Maximum number of groups must be greater than 0", ?_⟩
          rw [processInput_entities_ok hpe, if_neg hmin, if_neg hmm, if_pos htg]
  · intro hbad
    have herr : ∃ e, parseEntities nameLines = Except.error e := by
      unfold parseEntities
      exact mapME_error_of_mem parseEntityLine _ hbad
    rcases herr with ⟨e, he⟩
    exact ⟨e, processInput_entities_error he _ _ _ _⟩
  · intro records hpe hmin hmm htg hfields hbad
    have hlinks := mapME_links_unknown (jsDedup (records.map Prod.fst))
      (linkLines.filter fun l => trimStr l != "") hfields hbad
    rcases hlinks with ⟨s, t, herr, hnot⟩
    refine ⟨s, t, ?_, hnot⟩
    rw [processInput_entities_ok hpe, if_neg (by omega), if_neg (by omega), if_neg (by omega)]
    unfold parseLinks
    rw [herr]

/-- Witness for C6: a link referencing the unknown name `Bob` fails with
the unknown-entity error under an otherwise valid input. -/
theorem processInput_failFast_witness :
    ∃ s t, processInput ["Alice,F"] ["Alice,Bob"] 1 2 1
        = Except.error ("Link contains name not in names list: " ++ s ++ " or " ++ t)
      ∧ (s ∉ jsDedup ([("Alice", "F")].map Prod.fst)
        ∨ t ∉ jsDedup ([("Alice", "F")].map Prod.fst)) :=
  (processInput_failFast ["Alice,F"] ["Alice,Bob"] 1 2 1).2.2.2.2 [("Alice", "F")]
    rfl (by decide) (by decide) (by decide) (by decide) (by decide)

/-- C7.  The connectivity closure returns exactly the set of entity ids
reachable from the seed across the links taken as undirected edges, and
a seed that occurs in no link yields the singleton list of the seed. -/
theorem findConnectedNames_spec (seed : String) (linkPairs : List Link) :
    (∀ x, x ∈ findConnectedNames seed linkPairs ↔ Reachable linkPairs seed x)
    ∧ ((∀ l ∈ linkPairs, l.source ≠ seed ∧ l.target ≠ seed) →
        findConnectedNames seed linkPairs = [seed]) :=
  ⟨mem_findConnectedNames_iff seed linkPairs, findConnectedNames_of_untouched_seed⟩

/-- Witness for C7: membership coincides with reachability on a concrete
link list, and an untouched seed yields its singleton. -/
theorem findConnectedNames_spec_witness :
    ("Bob" ∈ findConnectedNames "Alice" [⟨"Alice", "Bob"⟩]
      ↔ Reachable [⟨"Alice", "Bob"⟩] "Alice" "Bob")
    ∧ findConnectedNames "Carol" [⟨"Alice", "Bob"⟩] = ["Carol"] :=
  ⟨(findConnectedNames_spec "Alice" [⟨"Alice", "Bob"⟩]).1 "Bob",
   (findConnectedNames_spec "Carol" [⟨"Alice", "Bob"⟩]).2 (by decide)⟩

/-- C8.  Duplicate entity identifiers collapse to one entity: the
unique-name list computed by `processInput` is the first-seen
deduplication of the record names (so it is duplicate-free and keeps
first-occurrence order), while the people map stores, for every name,
the gender of the last occurrence processed. -/
theorem entity_duplicates (records : List (String × String)) :
    jsDedup (records.map Prod.fst) = firstSeen (records.map Prod.fst)
    ∧ (jsDedup (records.map Prod.fst)).Nodup
    ∧ ∀ name, mapLookup (records.foldl (fun m r => mapSet m r.1 r.2) []) name
        = lastGenderOf records name := by
  refine ⟨jsDedup_eq_firstSeen _, jsDedup_nodup _, ?_⟩
  intro name
  rw [mapLookup_fold records [] name]
  rcases h : lastGenderOf records name with _ | v <;> rfl

/-- C9.  With `1 ≤ minSize ≤ maxSize`, every group built by
`createConnectedGroups` already has size at most `maxSize`, before any
merging: growth stops at `maxSize` and padding only pads up to
`minSize`. -/
theorem createConnectedGroups_maxSize (uniqueNames : List String) (linkPairs : List Link)
    (minSize maxSize : Nat) (hmin : 1 ≤ minSize) (hmax : minSize ≤ maxSize) :
    ∀ g ∈ createConnectedGroups uniqueNames linkPairs minSize maxSize,
      g.length ≤ maxSize := by
  unfold createConnectedGroups
  exact createLoop_sizes linkPairs hmax (by omega) _ _ [] (by simp)

/-- Witness for C9 at a concrete input. -/
theorem createConnectedGroups_maxSize_witness :
    ["Ann", "Ben"] ∈ createConnectedGroups ["Ann", "Ben", "Cy"] [⟨"Ann", "Ben"⟩] 1 2
    ∧ (["Ann", "Ben"] : List String).length ≤ 2 :=
  ⟨by decide,
   createConnectedGroups_maxSize ["Ann", "Ben", "Cy"] [⟨"Ann", "Ben"⟩] 1 2
     (by decide) (by decide) ["Ann", "Ben"] (by decide)⟩

/-- C10.  An entity with a self-link is never reported isolated: the
self-link passes the intra-group filter, so the entity's in-group
connection count is positive. -/
theorem selfLink_not_isolated (nodes : List Node) (connections : List Link) (n : Node)
    (groupId : Nat) (h1 : n ∈ groupedNodes nodes groupId)
    (h2 : (⟨n.id, n.id⟩ : Link) ∈ connections) :
    n ∉ getIsolatedMembers nodes connections groupId := by
  intro hiso
  unfold getIsolatedMembers at hiso
  have hpred := (List.mem_filter.mp hiso).2
  have hzero : getConnectionsForName n.id (getConnectionsInGroup nodes connections groupId)
      = 0 := by
    simpa using hpred
  have hmemids : n.id ∈ (groupedNodes nodes groupId).map Node.id :=
    List.mem_map.mpr ⟨n, h1, rfl⟩
  have hlinkmem : (⟨n.id, n.id⟩ : Link) ∈ getConnectionsInGroup nodes connections groupId := by
    unfold getConnectionsInGroup
    refine List.mem_filter.mpr ⟨h2, ?_⟩
    have hboth : (⟨n.id, n.id⟩ : Link).source ∈ (groupedNodes nodes groupId).map Node.id
        ∧ (⟨n.id, n.id⟩ : Link).target ∈ (groupedNodes nodes groupId).map Node.id :=
      ⟨hmemids, hmemids⟩
    simpa using hboth
  have htouch : (⟨n.id, n.id⟩ : Link) ∈ (getConnectionsInGroup nodes connections groupId).filter
      (fun conn => decide (conn.source = n.id ∨ conn.target = n.id)) :=
    List.mem_filter.mpr ⟨hlinkmem, by simp⟩
  unfold getConnectionsForName at hzero
  rw [List.length_eq_zero] at hzero
  rw [hzero] at htouch
  cases htouch

/-- Witness for C10 at a concrete input: `A` has a self-link and is not
isolated in its group. -/
theorem selfLink_not_isolated_witness :
    (⟨"A", "F", 0⟩ : Node) ∈ groupedNodes (mkNodes [["A"]] [("A", "F")]) 0
    ∧ (⟨"A", "A"⟩ : Link) ∈ ([⟨"A", "A"⟩] : List Link)
    ∧ (⟨"A", "F", 0⟩ : Node) ∉ getIsolatedMembers (mkNodes [["A"]] [("A", "F")])
        [⟨"A", "A"⟩] 0 :=
  ⟨by decide, by decide,
   selfLink_not_isolated (mkNodes [["A"]] [("A", "F")]) [⟨"A", "A"⟩] ⟨"A", "F", 0⟩ 0
     (by decide) (by decide)⟩
